import Mathlib

/-!
A verification development for the baguette tilemap editor's core
(`src/main.rs`): the sparse tile grid (an insertion-ordered map), the
drag-stroke diff accumulator, the bounded undo/redo history, and the
save/load orchestration.

Modelling conventions:
* `IndexMap<TilePos, Rect>` is modelled as an association list
  `List (TilePos × Rect)` whose key order is the map's iteration order.
  `insert` replaces the value in place for an existing key and appends for a
  fresh key; `remove` is `swap_remove` (the last entry is moved into the
  removed slot), exactly as `indexmap`'s `IndexMap::remove` behaves.
* `f32` coordinates of `ui::Rect` are modelled by integer codes; the only
  operation the core performs on them is equality comparison against
  `Rect::NOTHING` (whose coordinates are the infinities, so `==` on them is
  exact), which the integer codes model faithfully.
* `VecDeque<Tiles>` with capacity 5 is a `List Diff` with the oldest entry
  first and the newest entry last.
-/

/-- Grid cell position, `struct TilePos { x: i32, y: i32 }` in the source.
The core only compares positions for equality, so `Int` models `i32`. -/
structure TilePos where
  x : Int
  y : Int
deriving DecidableEq

/-- Integer code standing for the `f32` value `INFINITY` in `ui::Rect::NOTHING`. -/
def finf : Int := 2139095040

/-- A tile value, `ui::Rect` in the source: a sub-region of the spritesheet
given by min/max corners. Coordinates are modelled by integer codes for the
`f32` values (see the module docstring). -/
structure Rect where
  minx : Int
  miny : Int
  maxx : Int
  maxy : Int
deriving DecidableEq

/-- `ui::Rect::NOTHING`, the sentinel used by the editor to mark "this cell
held no tile" inside a diff: `min` is `(INFINITY, INFINITY)` and `max` is
`(-INFINITY, -INFINITY)`. -/
def Rect.NOTHING : Rect := ⟨finf, finf, -finf, -finf⟩

/-- `type Tiles = IndexMap<TilePos, ui::Rect>`: the entry list in iteration
order. -/
abbrev Tiles := List (TilePos × Rect)

/-- A diff has the same representation as the grid: a partial map from
positions to the values that existed before the recorded action. -/
abbrev Diff := Tiles

/-- The keys of a map, in iteration order. -/
def keysOf (l : Tiles) : List TilePos := l.map Prod.fst

/-- Key uniqueness, the `IndexMap` invariant. -/
def nodupKeys (l : Tiles) : Prop := (keysOf l).Nodup

instance (l : Tiles) : Decidable (nodupKeys l) := by
  unfold nodupKeys; infer_instance

/-- `IndexMap::get`: the value stored at `p`, if any. -/
def lookupIM : Tiles → TilePos → Option Rect
  | [], _ => none
  | (q, w) :: t, p => if q = p then some w else lookupIM t p

/-- `IndexMap::insert`: replace in place when the key is present (returning
the previous value), append at the end when it is absent (returning `none`). -/
def insertIM : Tiles → TilePos → Rect → Tiles × Option Rect
  | [], p, v => ([(p, v)], none)
  | (q, w) :: t, p, v =>
    if q = p then ((q, v) :: t, some w)
    else
      let r := insertIM t p v
      ((q, w) :: r.1, r.2)

/-- Move the last entry of a list to the front, leaving the rest in order:
the effect of `Vec::swap_remove` on the slot of the removed element when the
removed element is at the front. -/
def lastToFront (l : Tiles) : Tiles :=
  match l.reverse with
  | [] => []
  | x :: rest => x :: rest.reverse

/-- `IndexMap::remove`, which is `swap_remove`: the pair is removed by
swapping it with the last entry of the map and popping it off. Returns the
removed value, or `none` (a no-op) when the key is absent. -/
def swapRemoveIM : Tiles → TilePos → Tiles × Option Rect
  | [], _ => ([], none)
  | (q, w) :: t, p =>
    if q = p then (lastToFront t, some w)
    else
      let r := swapRemoveIM t p
      ((q, w) :: r.1, r.2)

/-- `struct SpriteSheet { path, rows, columns }`. The filesystem path is
modelled as its byte string. -/
structure SpriteSheet where
  path : List Int
  rows : Nat
  columns : Nat
deriving DecidableEq

/-- `struct SavedData { sprite_sheet, tiles }`: the persisted document. -/
structure SavedData where
  sprite_sheet : SpriteSheet
  tiles : List (TilePos × Rect)
deriving DecidableEq

/-- `TilesHistory::add`: when the deque already holds `capacity = 5` diffs,
the oldest (front) entry is dropped, then the new diff is appended as the
newest (back) entry. -/
def histAdd (h : List Diff) (d : Diff) : List Diff :=
  (if h.length ≥ 5 then h.drop 1 else h) ++ [d]

/-- `TilesHistory::pop`: remove and return the newest (back) entry. -/
def histPop (h : List Diff) : Option (Diff × List Diff) :=
  match h.getLast? with
  | none => none
  | some d => some (d, h.dropLast)

/-- The editor state: the fields of `struct Application` that the core
operations read or write. -/
structure AppState where
  sprite_sheet : Option SpriteSheet
  workspace_path : Option (List Int)
  selected_tile : Option (Nat × Rect)
  dragging : Option Diff
  tiles : Tiles
  undos : List Diff
  redos : List Diff
deriving DecidableEq

/-- `Application::new`: empty grid, empty histories, nothing selected. -/
def initState : AppState :=
  { sprite_sheet := none
    workspace_path := none
    selected_tile := none
    dragging := none
    tiles := []
    undos := []
    redos := [] }

/-! ## Core operations (`Application` methods) -/

/-- The drag-start branch of `Application::editor_grid` (runs when a primary
drag starts while a tile is selected and the pointer hovers the plot): clear
the redo stack and open an empty in-progress diff. -/
def dragBeginStep (s : AppState) : AppState :=
  { s with redos := [], dragging := some [] }

/-- The per-cell paint branch of `Application::editor_grid`: while a drag is
in progress with a tile selected, if the hovered cell is not yet recorded in
the in-progress diff, paint it with the selected tile value and record the
previous grid value (or `Rect.NOTHING` when the cell was empty) in the diff.
A cell already recorded in this stroke is skipped entirely. -/
def touchStep (s : AppState) (p : TilePos) : AppState :=
  match s.dragging, s.selected_tile with
  | some diff, some sel =>
    if (lookupIM diff p).isNone then
      let r := insertIM s.tiles p sel.2
      { s with
          tiles := r.1
          dragging := some (diff ++ [(p, r.2.getD Rect.NOTHING)]) }
    else s
  | _, _ => s

/-- The drag-release branch of `Application::editor_grid`: push the
in-progress diff onto the undo stack. The source unwraps
`self.dragging.take()`, so the `none` case of this function is never reached
there; `frameStep` below models that unwrap as a panic. -/
def dragEndStep (s : AppState) : AppState :=
  match s.dragging with
  | some d => { s with undos := histAdd s.undos d, dragging := none }
  | none => s

/-- The shared undo/redo replay loop of `Application::check_input`: walk the
popped diff in order; a `Rect::NOTHING` entry removes the cell
(`IndexMap::remove`, i.e. swap-remove), any other entry inserts the recorded
value; in both cases the value being displaced (or `Rect.NOTHING` when the
cell was empty) is collected, in the same order, into the complementary
diff. -/
def applyDiff : Tiles → Diff → Tiles × Diff
  | t, [] => (t, [])
  | t, (p, v) :: rest =>
    let step := if v = Rect.NOTHING then swapRemoveIM t p else insertIM t p v
    let next := applyDiff step.1 rest
    (next.1, (p, step.2.getD Rect.NOTHING) :: next.2)

/-- The Ctrl+Z branch of `Application::check_input`: pop the undo stack (a
no-op when empty), replay the diff against the grid, and push the
complementary diff onto the redo stack. -/
def undoStep (s : AppState) : AppState :=
  match histPop s.undos with
  | none => s
  | some (d, rest) =>
    let r := applyDiff s.tiles d
    { s with tiles := r.1, undos := rest, redos := histAdd s.redos r.2 }

/-- The Ctrl+Shift+Z branch of `Application::check_input`: symmetric to
`undoStep` with the two stacks exchanged. -/
def redoStep (s : AppState) : AppState :=
  match histPop s.redos with
  | none => s
  | some (d, rest) =>
    let r := applyDiff s.tiles d
    { s with tiles := r.1, redos := rest, undos := histAdd s.undos r.2 }

/-- The clear button of `Application::top_panel`: when the grid is non-empty,
push a clone of the whole grid onto the undo stack and clear the grid. The
redo stack is not touched. -/
def resetStep (s : AppState) : AppState :=
  if s.tiles.isEmpty then s
  else { s with tiles := [], undos := histAdd s.undos s.tiles }

/-- Rebuild the grid from a decoded document: `load_workspace` clears the
grid and then inserts the saved pairs in file order. -/
def fromList (l : List (TilePos × Rect)) : Tiles :=
  l.foldl (fun t e => (insertIM t e.1 e.2).1) []

/-- `Application::load_workspace`, with the file read and `bincode` decode
summarised by the `res` argument (`none` for a cancelled dialog, I/O error or
failed decode). Only a successful decode replaces the grid and spritesheet
reference and clears both history stacks; any failure leaves the state
exactly as it was. -/
def loadStep (s : AppState) (path : List Int) (res : Option SavedData) : AppState :=
  match res with
  | none => s
  | some data =>
    { s with
        tiles := fromList data.tiles
        undos := []
        redos := []
        sprite_sheet := some data.sprite_sheet
        workspace_path := some path }

/-- `Application::select_spritesheet` with a chosen path: record the new
spritesheet reference and forget the workspace path. -/
def selectSheetStep (s : AppState) (path : List Int) : AppState :=
  { s with sprite_sheet := some ⟨path, 1, 1⟩, workspace_path := none }

/-! ## Document codec

Modelled from the spec: the serialization itself is performed by the external
`bincode` crate, which is not part of this repository; the token-level codec
below follows the persisted document format of the spec (a `SpriteSheet` as a
length-prefixed path string plus row and column counts, then a
length-prefixed sequence of tile entries `x, y, u_min, v_min, u_max, v_max`).
Like `bincode::deserialize`, decoding ignores trailing tokens but rejects
truncated input. -/

/-- Modelled from the spec: serialize a `SpriteSheet` (length-prefixed path
string, row count, column count). -/
def encodeSheet (ss : SpriteSheet) : List Int :=
  (ss.path.length : Int) :: ss.path ++ [(ss.rows : Int), (ss.columns : Int)]

/-- Modelled from the spec: serialize one tile entry. -/
def encodeTile (e : TilePos × Rect) : List Int :=
  [e.1.x, e.1.y, e.2.minx, e.2.miny, e.2.maxx, e.2.maxy]

/-- Modelled from the spec: serialize a whole document. -/
def encodeSaved (d : SavedData) : List Int :=
  encodeSheet d.sprite_sheet ++
    (d.tiles.length : Int) :: (d.tiles.map encodeTile).flatten

/-- Read one token. -/
def readInt : List Int → Option (Int × List Int)
  | [] => none
  | x :: xs => some (x, xs)

/-- Read one token and interpret it as a non-negative count. -/
def readNat (l : List Int) : Option (Nat × List Int) :=
  match l with
  | [] => none
  | x :: xs => if x < 0 then none else some (x.toNat, xs)

/-- Read exactly `n` tokens, failing on truncation. -/
def readChunk : Nat → List Int → Option (List Int × List Int)
  | 0, l => some ([], l)
  | _ + 1, [] => none
  | n + 1, x :: xs =>
    match readChunk n xs with
    | none => none
    | some (a, r) => some (x :: a, r)

/-- Read one tile entry. -/
def readTile (l : List Int) : Option ((TilePos × Rect) × List Int) :=
  match l with
  | x :: y :: a :: b :: c :: d :: rest => some ((⟨x, y⟩, ⟨a, b, c, d⟩), rest)
  | _ => none

/-- Read exactly `n` tile entries. -/
def readTiles : Nat → List Int → Option (List (TilePos × Rect) × List Int)
  | 0, l => some ([], l)
  | n + 1, l =>
    match readTile l with
    | none => none
    | some (e, r) =>
      match readTiles n r with
      | none => none
      | some (es, r2) => some (e :: es, r2)

/-- Modelled from the spec: decode a document, fully succeeding or reporting
failure; a truncated or malformed payload never yields a partial document. -/
def decodeSaved (l : List Int) : Option SavedData :=
  match readNat l with
  | none => none
  | some (plen, r1) =>
    match readChunk plen r1 with
    | none => none
    | some (path, r2) =>
      match readNat r2 with
      | none => none
      | some (rows, r3) =>
        match readNat r3 with
        | none => none
        | some (cols, r4) =>
          match readNat r4 with
          | none => none
          | some (n, r5) =>
            match readTiles n r5 with
            | none => none
            | some (tiles, _) => some ⟨⟨path, rows, cols⟩, tiles⟩

/-- `Application::save_workspace`: fails (touching nothing) when no
spritesheet reference is set; otherwise snapshots the grid in iteration order
into a document and encodes it. When no workspace path is set yet, a save
dialog result is consumed: cancellation fails without touching state, a
chosen path is recorded. The returned option is the byte payload written to
disk, `none` on failure. -/
def saveStep (s : AppState) (dialog : Option (List Int)) :
    AppState × Option (List Int) :=
  match s.sprite_sheet with
  | none => (s, none)
  | some ss =>
    match s.workspace_path with
    | some _ => (s, some (encodeSaved ⟨ss, s.tiles⟩))
    | none =>
      match dialog with
      | none => (s, none)
      | some p =>
        ({ s with workspace_path := some p }, some (encodeSaved ⟨ss, s.tiles⟩))

/-! ## The per-frame plot handler -/

/-- The full hover/drag handler of `Application::editor_grid` for one frame,
with the frame's input (hover position in cell coordinates, whether a primary
drag started, whether a primary drag was released) passed in. Returns `none`
exactly when the source panics: the drag-release branch runs
`self.dragging.take().unwrap()`, which aborts when no stroke is in
progress. -/
def frameStep (s : AppState) (hover : Option TilePos)
    (dragStart dragRelease : Bool) : Option AppState :=
  match hover with
  | none => some s
  | some p =>
    match s.selected_tile with
    | none => some s
    | some _ =>
      let s1? : Option AppState :=
        if dragStart then some (dragBeginStep s)
        else if dragRelease then
          match s.dragging with
          | some _ => some (dragEndStep s)
          | none => none
        else some s
      match s1? with
      | none => none
      | some s1 => some (touchStep s1 p)

/-! ## Reachable states -/

/-- The states reachable from `Application::new` through the core operations,
at the granularity the event loop delivers them. Side conditions mirror the
guards in the source and the UI layer: a stroke begins and ends only while a
tile is selected (`editor_grid` returns early otherwise); a stroke ends only
while a drag is in progress (the source unwraps `self.dragging`); a tile
selected from the bottom panel is a finite sub-rectangle of the spritesheet
produced by `load_images`, so it never equals `Rect::NOTHING`; and the load
menu entry is clicked with the primary button, which cannot happen while a
primary-button drag holds a stroke open. -/
inductive Reach : AppState → Prop where
  | init : Reach initState
  | selectSheet {s} (path : List Int) :
      Reach s → Reach (selectSheetStep s path)
  | selectTile {s} (i : Nat) (r : Rect) :
      Reach s → r ≠ Rect.NOTHING →
      Reach { s with selected_tile := some (i, r) }
  | strokeBegin {s} :
      Reach s → s.selected_tile.isSome = true → Reach (dragBeginStep s)
  | strokeTouch {s} (p : TilePos) : Reach s → Reach (touchStep s p)
  | strokeEnd {s} :
      Reach s → s.selected_tile.isSome = true → s.dragging.isSome = true →
      Reach (dragEndStep s)
  | undo {s} : Reach s → Reach (undoStep s)
  | redo {s} : Reach s → Reach (redoStep s)
  | reset {s} : Reach s → Reach (resetStep s)
  | load {s} (path : List Int) (res : Option SavedData) :
      Reach s → s.dragging = none → Reach (loadStep s path res)
  | save {s} (dialog : Option (List Int)) :
      Reach s → Reach (saveStep s dialog).1

/-! ## Map lemmas -/

theorem lookupIM_eq_none {l : Tiles} {q : TilePos} :
    lookupIM l q = none ↔ q ∉ keysOf l := by
  induction l with
  | nil => simp [lookupIM, keysOf]
  | cons e t ih =>
    obtain ⟨a, b⟩ := e
    by_cases hq : a = q
    · subst hq
      simp [lookupIM, keysOf]
    · rw [lookupIM, if_neg hq, ih]
      simp only [keysOf, List.map_cons, List.mem_cons]
      constructor
      · intro h hm
        rcases hm with h1 | h2
        · exact hq h1.symm
        · exact h h2
      · intro h hm
        exact h (Or.inr hm)

theorem lookupIM_eq_some_iff {l : Tiles} {q : TilePos} {w : Rect}
    (h : nodupKeys l) : lookupIM l q = some w ↔ (q, w) ∈ l := by
  induction l with
  | nil => simp [lookupIM]
  | cons e t ih =>
    obtain ⟨a, b⟩ := e
    rw [nodupKeys, keysOf] at h
    simp only [List.map_cons, List.nodup_cons] at h
    by_cases hq : a = q
    · subst hq
      rw [lookupIM, if_pos rfl]
      constructor
      · intro hw
        injection hw with hw
        subst hw
        exact List.mem_cons_self _ _
      · intro hm
        rcases List.mem_cons.mp hm with he | hm2
        · injection he with h1 h2
          rw [h2]
        · exact absurd (List.mem_map_of_mem Prod.fst hm2) h.1
    · rw [lookupIM, if_neg hq, ih h.2]
      constructor
      · intro hm
        exact List.mem_cons_of_mem _ hm
      · intro hm
        rcases List.mem_cons.mp hm with he | hm2
        · exact absurd (congrArg Prod.fst he).symm hq
        · exact hm2

theorem nodupKeys_of_perm {l l' : Tiles} (h : l.Perm l') (hn : nodupKeys l) :
    nodupKeys l' :=
  ((h.map Prod.fst).nodup_iff).mp hn

theorem lookupIM_congr_perm {l l' : Tiles} (h : l.Perm l') (hn : nodupKeys l)
    (q : TilePos) : lookupIM l q = lookupIM l' q := by
  cases hv : lookupIM l q with
  | none =>
    rw [lookupIM_eq_none] at hv
    have hq : q ∉ keysOf l' := fun hm => hv ((h.map Prod.fst).mem_iff.mpr hm)
    exact ((lookupIM_eq_none).mpr hq).symm
  | some w =>
    rw [lookupIM_eq_some_iff hn] at hv
    exact ((lookupIM_eq_some_iff (nodupKeys_of_perm h hn)).mpr
      (h.mem_iff.mp hv)).symm

theorem lastToFront_perm (l : Tiles) : (lastToFront l).Perm l := by
  unfold lastToFront
  cases hl : l.reverse with
  | nil => simp [List.reverse_eq_nil_iff.mp hl]
  | cons x rest =>
    have hl2 : l = rest.reverse ++ [x] := by
      have h2 := congrArg List.reverse hl
      simpa using h2
    rw [hl2]
    exact (List.perm_append_singleton x rest.reverse).symm

theorem insertIM_snd (l : Tiles) (p : TilePos) (v : Rect) :
    (insertIM l p v).2 = lookupIM l p := by
  induction l with
  | nil => simp [insertIM, lookupIM]
  | cons e t ih =>
    obtain ⟨a, b⟩ := e
    by_cases hq : a = p <;> simp [insertIM, lookupIM, hq, ih]

theorem lookupIM_insertIM (l : Tiles) (p : TilePos) (v : Rect) (q : TilePos) :
    lookupIM (insertIM l p v).1 q = if q = p then some v else lookupIM l q := by
  induction l with
  | nil =>
    by_cases hq : q = p
    · subst hq
      simp [insertIM, lookupIM]
    · simp only [insertIM, lookupIM, hq, if_neg, ite_false, ite_eq_right_iff]
      intro h
      exact absurd h.symm hq
  | cons e t ih =>
    obtain ⟨a, b⟩ := e
    by_cases ha : a = p
    · subst ha
      simp only [insertIM, if_pos rfl]
      by_cases hq : a = q
      · subst hq
        simp [lookupIM]
      · have hq' : ¬q = a := fun h => hq h.symm
        simp only [lookupIM, if_neg hq, if_neg hq']
    · simp only [insertIM, if_neg ha]
      by_cases haq : a = q
      · have hqp : ¬q = p := fun h => ha (haq.trans h)
        simp only [lookupIM, if_pos haq, if_neg hqp]
      · simp only [lookupIM, if_neg haq, ih]

theorem keysOf_insertIM (l : Tiles) (p : TilePos) (v : Rect) :
    keysOf (insertIM l p v).1 =
      if p ∈ keysOf l then keysOf l else keysOf l ++ [p] := by
  induction l with
  | nil => simp [insertIM, keysOf]
  | cons e t ih =>
    obtain ⟨a, b⟩ := e
    by_cases ha : a = p
    · subst ha
      simp [insertIM, keysOf]
    · have hne : ¬p = a := fun h => ha h.symm
      simp only [insertIM, if_neg ha, keysOf, List.map_cons, List.mem_cons,
        hne, false_or] at ih ⊢
      by_cases hm : p ∈ List.map Prod.fst t
      · rw [if_pos hm] at ih ⊢
        rw [ih]
      · rw [if_neg hm] at ih ⊢
        rw [ih, List.cons_append]

theorem nodupKeys_insertIM {l : Tiles} (h : nodupKeys l) (p : TilePos)
    (v : Rect) : nodupKeys (insertIM l p v).1 := by
  rw [nodupKeys, keysOf_insertIM]
  by_cases hm : p ∈ keysOf l
  · simpa [hm] using h
  · rw [if_neg hm]
    refine List.Nodup.append h (List.nodup_singleton p) ?_
    intro q hq hqp
    rw [List.mem_singleton] at hqp
    exact hm (hqp ▸ hq)

theorem insertIM_absent {l : Tiles} {p : TilePos} (h : lookupIM l p = none)
    (v : Rect) : (insertIM l p v).1 = l ++ [(p, v)] := by
  induction l with
  | nil => simp [insertIM]
  | cons e t ih =>
    obtain ⟨a, b⟩ := e
    rw [lookupIM] at h
    by_cases ha : a = p
    · rw [if_pos ha] at h
      exact absurd h (by simp)
    · rw [if_neg ha] at h
      simp [insertIM, ha, ih h]

theorem swapRemoveIM_snd (l : Tiles) (p : TilePos) :
    (swapRemoveIM l p).2 = lookupIM l p := by
  induction l with
  | nil => simp [swapRemoveIM, lookupIM]
  | cons e t ih =>
    obtain ⟨a, b⟩ := e
    by_cases ha : a = p <;> simp [swapRemoveIM, lookupIM, ha, ih]

theorem swapRemoveIM_absent {l : Tiles} {p : TilePos}
    (h : lookupIM l p = none) : swapRemoveIM l p = (l, none) := by
  induction l with
  | nil => simp [swapRemoveIM]
  | cons e t ih =>
    obtain ⟨a, b⟩ := e
    rw [lookupIM] at h
    by_cases ha : a = p
    · rw [if_pos ha] at h
      exact absurd h (by simp)
    · rw [if_neg ha] at h
      simp [swapRemoveIM, ha, ih h]

theorem keysOf_swapRemoveIM_subset {l : Tiles} {p q : TilePos}
    (h : q ∈ keysOf (swapRemoveIM l p).1) : q ∈ keysOf l := by
  induction l with
  | nil =>
    simp [swapRemoveIM, keysOf] at h
  | cons e t ih =>
    obtain ⟨a, b⟩ := e
    by_cases ha : a = p
    · rw [swapRemoveIM] at h
      simp only [if_pos ha] at h
      have hp : q ∈ keysOf t :=
        ((lastToFront_perm t).map Prod.fst).mem_iff.mp h
      rw [keysOf] at hp
      simp only [keysOf, List.map_cons, List.mem_cons]
      exact Or.inr hp
    · rw [swapRemoveIM] at h
      simp only [if_neg ha] at h
      simp only [keysOf, List.map_cons, List.mem_cons] at h ⊢
      rcases h with h1 | h2
      · exact Or.inl h1
      · exact Or.inr (ih h2)

theorem nodupKeys_swapRemoveIM {l : Tiles} (h : nodupKeys l) (p : TilePos) :
    nodupKeys (swapRemoveIM l p).1 := by
  induction l with
  | nil => simpa [swapRemoveIM] using h
  | cons e t ih =>
    obtain ⟨a, b⟩ := e
    rw [nodupKeys, keysOf, List.map_cons, List.nodup_cons] at h
    by_cases ha : a = p
    · rw [swapRemoveIM]
      simp only [if_pos ha]
      exact nodupKeys_of_perm (lastToFront_perm t).symm h.2
    · rw [swapRemoveIM]
      simp only [if_neg ha]
      rw [nodupKeys, keysOf, List.map_cons, List.nodup_cons]
      refine ⟨fun hm => h.1 (keysOf_swapRemoveIM_subset hm), ih h.2⟩

theorem lookupIM_swapRemoveIM {l : Tiles} (h : nodupKeys l) (p q : TilePos) :
    lookupIM (swapRemoveIM l p).1 q = if q = p then none else lookupIM l q := by
  induction l with
  | nil => simp [swapRemoveIM, lookupIM]
  | cons e t ih =>
    obtain ⟨a, b⟩ := e
    rw [nodupKeys, keysOf, List.map_cons, List.nodup_cons] at h
    by_cases ha : a = p
    · subst ha
      have h2 : swapRemoveIM ((a, b) :: t) a = (lastToFront t, some b) := by
        rw [swapRemoveIM]
        simp
      rw [h2]
      have hperm := lookupIM_congr_perm (lastToFront_perm t)
        (nodupKeys_of_perm (lastToFront_perm t).symm h.2) q
      rw [hperm]
      by_cases hq : q = a
      · subst hq
        rw [if_pos rfl]
        exact lookupIM_eq_none.mpr h.1
      · have hq' : ¬a = q := fun hh => hq hh.symm
        rw [if_neg hq, lookupIM, if_neg hq']
    · rw [swapRemoveIM]
      simp only [if_neg ha]
      by_cases haq : a = q
      · have hqp : ¬q = p := fun hh => ha (haq.trans hh)
        simp only [lookupIM, if_pos haq, if_neg hqp]
      · simp only [lookupIM, if_neg haq, ih h.2]

/-! ## History lemmas -/

theorem histAdd_length_le {h : List Diff} (hl : h.length ≤ 5) (d : Diff) :
    (histAdd h d).length ≤ 5 := by
  unfold histAdd
  by_cases hge : h.length ≥ 5
  · rw [if_pos hge]
    simp only [List.length_append, List.length_drop, List.length_singleton]
    omega
  · rw [if_neg hge]
    simp only [List.length_append, List.length_singleton]
    omega

theorem histPop_histAdd (h : List Diff) (d : Diff) :
    histPop (histAdd h d) =
      some (d, if h.length ≥ 5 then h.drop 1 else h) := by
  unfold histPop histAdd
  by_cases hge : h.length ≥ 5 <;>
    simp [hge, List.getLast?_concat, List.dropLast_concat]

theorem mem_histAdd {h : List Diff} {d e : Diff} (hm : e ∈ histAdd h d) :
    e ∈ h ∨ e = d := by
  unfold histAdd at hm
  rcases List.mem_append.mp hm with h1 | h2
  · by_cases hge : h.length ≥ 5
    · rw [if_pos hge] at h1
      exact Or.inl (List.mem_of_mem_drop h1)
    · rw [if_neg hge] at h1
      exact Or.inl h1
  · exact Or.inr (List.mem_singleton.mp h2)

theorem histPop_mem {h : List Diff} {d : Diff} {rest : List Diff}
    (hp : histPop h = some (d, rest)) : d ∈ h ∧ ∀ e ∈ rest, e ∈ h := by
  unfold histPop at hp
  cases hl : h.getLast? with
  | none => rw [hl] at hp; cases hp
  | some x =>
    rw [hl] at hp
    injection hp with hp
    injection hp with hp1 hp2
    have hd : x ∈ h.getLast? := by
      rw [hl]
      rfl
    have hx : h.dropLast ++ [x] = h := List.dropLast_append_getLast? x hd
    constructor
    · rw [← hp1, ← hx]
      exact List.mem_append_right _ (List.mem_singleton_self x)
    · intro e he
      rw [← hp2] at he
      exact List.mem_of_mem_dropLast he

theorem histPop_length {h : List Diff} {d : Diff} {rest : List Diff}
    (hp : histPop h = some (d, rest)) : rest.length = h.length - 1 := by
  unfold histPop at hp
  cases hl : h.getLast? with
  | none => rw [hl] at hp; cases hp
  | some x =>
    rw [hl] at hp
    injection hp with hp
    injection hp with hp1 hp2
    subst hp2
    simp [List.length_dropLast]

theorem lookupIM_cons_self (p : TilePos) (v : Rect) (t : Tiles) :
    lookupIM ((p, v) :: t) p = some v := by
  simp [lookupIM]

theorem lookupIM_cons_ne {a p : TilePos} (h : ¬a = p) (w : Rect) (t : Tiles) :
    lookupIM ((a, w) :: t) p = lookupIM t p := by
  simp [lookupIM, h]

/-! ## Replay-loop lemmas -/

theorem nodupKeys_applyDiff {t : Tiles} (ht : nodupKeys t) (d : Diff) :
    nodupKeys (applyDiff t d).1 := by
  induction d generalizing t with
  | nil => simpa [applyDiff] using ht
  | cons e rest ih =>
    obtain ⟨p, v⟩ := e
    rw [applyDiff]
    by_cases hv : v = Rect.NOTHING
    · rw [if_pos hv]
      exact ih (nodupKeys_swapRemoveIM ht p)
    · rw [if_neg hv]
      exact ih (nodupKeys_insertIM ht p v)

theorem lookupIM_applyDiff_not_mem {t : Tiles} {d : Diff} {q : TilePos}
    (ht : nodupKeys t) (hq : q ∉ keysOf d) :
    lookupIM (applyDiff t d).1 q = lookupIM t q := by
  induction d generalizing t with
  | nil => simp [applyDiff]
  | cons e rest ih =>
    obtain ⟨p, v⟩ := e
    simp only [keysOf, List.map_cons, List.mem_cons] at hq
    push_neg at hq
    rw [applyDiff]
    by_cases hv : v = Rect.NOTHING
    · rw [if_pos hv]
      rw [ih (nodupKeys_swapRemoveIM ht p) (by simpa [keysOf] using hq.2),
        lookupIM_swapRemoveIM ht p q, if_neg hq.1]
    · simp only [if_neg hv]
      rw [ih (nodupKeys_insertIM ht p v) (by simpa [keysOf] using hq.2),
        lookupIM_insertIM t p v q, if_neg hq.1]

theorem lookupIM_applyDiff {t : Tiles} {d : Diff} (ht : nodupKeys t)
    (hd : nodupKeys d) (q : TilePos) :
    lookupIM (applyDiff t d).1 q =
      match lookupIM d q with
      | some v => if v = Rect.NOTHING then none else some v
      | none => lookupIM t q := by
  induction d generalizing t with
  | nil => simp [applyDiff, lookupIM]
  | cons e rest ih =>
    obtain ⟨p, v⟩ := e
    rw [nodupKeys, keysOf, List.map_cons, List.nodup_cons] at hd
    rw [applyDiff]
    by_cases hq : p = q
    · subst hq
      have hrest : p ∉ keysOf rest := by
        simpa [keysOf] using hd.1
      rw [lookupIM_cons_self]
      by_cases hv : v = Rect.NOTHING
      · rw [if_pos hv]
        rw [lookupIM_applyDiff_not_mem (nodupKeys_swapRemoveIM ht p) hrest,
          lookupIM_swapRemoveIM ht p p, if_pos rfl]
        simp [hv]
      · simp only [if_neg hv]
        rw [lookupIM_applyDiff_not_mem (nodupKeys_insertIM ht p v) hrest,
          lookupIM_insertIM t p v p, if_pos rfl]
    · rw [lookupIM_cons_ne hq]
      by_cases hv : v = Rect.NOTHING
      · rw [if_pos hv]
        rw [ih (nodupKeys_swapRemoveIM ht p) hd.2]
        cases hrq : lookupIM rest q with
        | none =>
          simp only []
          rw [lookupIM_swapRemoveIM ht p q, if_neg (fun h => hq h.symm)]
        | some w => simp only []
      · simp only [if_neg hv]
        rw [ih (nodupKeys_insertIM ht p v) hd.2]
        cases hrq : lookupIM rest q with
        | none =>
          simp only []
          rw [lookupIM_insertIM t p v q, if_neg (fun h => hq h.symm)]
        | some w => simp only []

theorem applyDiff_snd {t : Tiles} {d : Diff} (ht : nodupKeys t)
    (hd : nodupKeys d) :
    (applyDiff t d).2 =
      d.map (fun e => (e.1, (lookupIM t e.1).getD Rect.NOTHING)) := by
  induction d generalizing t with
  | nil => simp [applyDiff]
  | cons e rest ih =>
    obtain ⟨p, v⟩ := e
    rw [nodupKeys, keysOf, List.map_cons, List.nodup_cons] at hd
    have hrest : p ∉ keysOf rest := by
      simpa [keysOf] using hd.1
    rw [applyDiff]
    by_cases hv : v = Rect.NOTHING
    · rw [if_pos hv]
      simp only [List.map_cons]
      rw [swapRemoveIM_snd]
      refine congrArg _ ?_
      rw [ih (nodupKeys_swapRemoveIM ht p) hd.2]
      refine List.map_congr_left fun x hx => ?_
      have hxp : x.1 ≠ p := fun h =>
        hrest (h ▸ List.mem_map_of_mem Prod.fst hx)
      rw [lookupIM_swapRemoveIM ht p x.1, if_neg hxp]
    · simp only [if_neg hv, List.map_cons]
      rw [insertIM_snd]
      refine congrArg _ ?_
      rw [ih (nodupKeys_insertIM ht p v) hd.2]
      refine List.map_congr_left fun x hx => ?_
      have hxp : x.1 ≠ p := fun h =>
        hrest (h ▸ List.mem_map_of_mem Prod.fst hx)
      rw [lookupIM_insertIM t p v x.1, if_neg hxp]

theorem keysOf_applyDiff_snd {t : Tiles} {d : Diff} (ht : nodupKeys t)
    (hd : nodupKeys d) : keysOf (applyDiff t d).2 = keysOf d := by
  rw [applyDiff_snd ht hd]
  simp [keysOf, List.map_map]

theorem nodupKeys_applyDiff_snd {t : Tiles} {d : Diff} (ht : nodupKeys t)
    (hd : nodupKeys d) : nodupKeys (applyDiff t d).2 := by
  rw [nodupKeys, keysOf_applyDiff_snd ht hd]
  exact hd

/-! ## The reachability invariant -/

/-- A diff is coherent with the current grid: its keys are unique (it came
out of an `IndexMap`) and none of them currently stores the sentinel value in
the grid. -/
def DiffOK (t : Tiles) (d : Diff) : Prop :=
  nodupKeys d ∧ ∀ p ∈ keysOf d, lookupIM t p ≠ some Rect.NOTHING

/-- The invariant every reachable editor state satisfies. -/
def INV (s : AppState) : Prop :=
  nodupKeys s.tiles ∧
  s.undos.length ≤ 5 ∧
  s.redos.length ≤ 5 ∧
  (∀ d ∈ s.undos, DiffOK s.tiles d) ∧
  (∀ d ∈ s.redos, DiffOK s.tiles d) ∧
  (∀ d, s.dragging = some d → DiffOK s.tiles d) ∧
  (∀ e, s.selected_tile = some e → e.2 ≠ Rect.NOTHING)

theorem applyDiff_lookup_ne_nothing {t : Tiles} {d : Diff} {q : TilePos}
    (ht : nodupKeys t) (hd : nodupKeys d)
    (h : lookupIM t q ≠ some Rect.NOTHING ∨ q ∈ keysOf d) :
    lookupIM (applyDiff t d).1 q ≠ some Rect.NOTHING := by
  rw [lookupIM_applyDiff ht hd q]
  cases hdq : lookupIM d q with
  | none =>
    rcases h with h1 | h2
    · exact h1
    · exact absurd (lookupIM_eq_none.mp hdq) (fun hc => hc h2)
  | some v =>
    by_cases hv : v = Rect.NOTHING
    · simp [hv]
    · simp only [if_neg hv]
      intro hc
      injection hc with hc
      exact hv hc

theorem insertIM_lookup_ne_nothing {t : Tiles} {p q : TilePos} {v : Rect}
    (hv : v ≠ Rect.NOTHING)
    (h : q = p ∨ lookupIM t q ≠ some Rect.NOTHING) :
    lookupIM (insertIM t p v).1 q ≠ some Rect.NOTHING := by
  rw [lookupIM_insertIM t p v q]
  by_cases hq : q = p
  · rw [if_pos hq]
    intro hc
    injection hc with hc
    exact hv hc
  · rw [if_neg hq]
    rcases h with h1 | h2
    · exact absurd h1 hq
    · exact h2

theorem nodupKeys_fromList_aux (l : List (TilePos × Rect)) :
    ∀ acc : Tiles, nodupKeys acc →
      nodupKeys (l.foldl (fun t e => (insertIM t e.1 e.2).1) acc) := by
  induction l with
  | nil => intro acc hacc; simpa using hacc
  | cons e rest ih =>
    intro acc hacc
    exact ih _ (nodupKeys_insertIM hacc e.1 e.2)

theorem nodupKeys_fromList (l : List (TilePos × Rect)) :
    nodupKeys (fromList l) :=
  nodupKeys_fromList_aux l [] (by simp [nodupKeys, keysOf])

theorem fromList_nodup {l : List (TilePos × Rect)} (h : nodupKeys l) :
    fromList l = l := by
  unfold fromList
  suffices haux : ∀ acc : Tiles, (∀ p ∈ keysOf l, lookupIM acc p = none) →
      l.foldl (fun t e => (insertIM t e.1 e.2).1) acc = acc ++ l by
    simpa using haux [] (fun p _ => rfl)
  induction l with
  | nil => intro acc _; simp
  | cons e rest ih =>
    intro acc hacc
    rw [nodupKeys, keysOf, List.map_cons, List.nodup_cons] at h
    rw [List.foldl_cons, insertIM_absent (hacc e.1 (by simp [keysOf]))]
    rw [ih h.2 _ ?_]
    · simp
    · intro p hp
      have hpm : p ∈ keysOf (e :: rest) := by
        rw [keysOf] at hp ⊢
        rw [List.map_cons]
        exact List.mem_cons_of_mem _ hp
      rw [lookupIM_eq_none, keysOf, List.map_append]
      rw [List.mem_append]
      push_neg
      constructor
      · exact fun hm => lookupIM_eq_none.mp (hacc p hpm) hm
      · intro hm
        simp only [List.map_cons, List.map_nil, List.mem_singleton] at hm
        rw [keysOf] at hp
        exact h.1 (hm ▸ hp)

theorem INV_initState : INV initState := by
  refine ⟨?_, ?_, ?_, ?_, ?_, ?_, ?_⟩ <;> simp [initState, nodupKeys, keysOf]

theorem INV_selectSheetStep {s : AppState} (h : INV s) (path : List Int) :
    INV (selectSheetStep s path) := by
  obtain ⟨ht, hul, hrl, hu, hr, hdrag, hsel⟩ := h
  exact ⟨ht, hul, hrl, hu, hr, hdrag, hsel⟩

theorem INV_selectTile {s : AppState} (h : INV s) (i : Nat) {r : Rect}
    (hrn : r ≠ Rect.NOTHING) :
    INV { s with selected_tile := some (i, r) } := by
  obtain ⟨ht, hul, hrl, hu, hr, hdrag, hsel⟩ := h
  refine ⟨ht, hul, hrl, hu, hr, hdrag, ?_⟩
  intro e he
  simp only at he
  injection he with he
  rw [← he]
  exact hrn

theorem INV_dragBeginStep {s : AppState} (h : INV s) :
    INV (dragBeginStep s) := by
  obtain ⟨ht, hul, hrl, hu, hr, hdrag, hsel⟩ := h
  refine ⟨ht, hul, by simp [dragBeginStep], hu, by simp [dragBeginStep], ?_, hsel⟩
  intro d hd
  simp only [dragBeginStep] at hd
  injection hd with hd
  rw [← hd]
  exact ⟨by simp [nodupKeys, keysOf], by simp [keysOf]⟩

theorem touchStep_eq_active {s : AppState} {diff : Diff} {sel : Nat × Rect}
    (hdg : s.dragging = some diff) (hse : s.selected_tile = some sel)
    (p : TilePos) :
    touchStep s p =
      if (lookupIM diff p).isNone then
        { s with
            tiles := (insertIM s.tiles p sel.2).1
            dragging :=
              some (diff ++ [(p, (insertIM s.tiles p sel.2).2.getD Rect.NOTHING)]) }
      else s := by
  unfold touchStep
  rw [hdg, hse]

theorem touchStep_eq_idle {s : AppState} (p : TilePos)
    (h : s.dragging = none ∨ s.selected_tile = none) : touchStep s p = s := by
  unfold touchStep
  rcases h with h | h
  · rw [h]
  · rw [h]
    cases hd : s.dragging <;> rfl

theorem INV_touchStep {s : AppState} (h : INV s) (p : TilePos) :
    INV (touchStep s p) := by
  obtain ⟨ht, hul, hrl, hu, hr, hdrag, hsel⟩ := h
  cases hdg : s.dragging with
  | none =>
    rw [touchStep_eq_idle p (Or.inl hdg)]
    exact ⟨ht, hul, hrl, hu, hr, hdrag, hsel⟩
  | some diff =>
    cases hse : s.selected_tile with
    | none =>
      rw [touchStep_eq_idle p (Or.inr hse)]
      exact ⟨ht, hul, hrl, hu, hr, hdrag, hsel⟩
    | some sel =>
      rw [touchStep_eq_active hdg hse p]
      by_cases hlk : (lookupIM diff p).isNone
      · rw [if_pos hlk]
        have hselv : sel.2 ≠ Rect.NOTHING := hsel sel hse
        have hdok : DiffOK s.tiles diff := hdrag diff hdg
        have hlnone : lookupIM diff p = none := Option.isNone_iff_eq_none.mp hlk
        have hpres : ∀ q, lookupIM s.tiles q ≠ some Rect.NOTHING →
            lookupIM (insertIM s.tiles p sel.2).1 q ≠ some Rect.NOTHING :=
          fun q hq => insertIM_lookup_ne_nothing hselv (Or.inr hq)
        refine ⟨nodupKeys_insertIM ht p sel.2, hul, hrl, ?_, ?_, ?_, hsel⟩
        · intro d hd
          obtain ⟨hn1, hn2⟩ := hu d hd
          exact ⟨hn1, fun q hq => hpres q (hn2 q hq)⟩
        · intro d hd
          obtain ⟨hn1, hn2⟩ := hr d hd
          exact ⟨hn1, fun q hq => hpres q (hn2 q hq)⟩
        · intro d hd
          simp only [Option.some.injEq] at hd
          rw [← hd]
          constructor
          · rw [nodupKeys, keysOf, List.map_append]
            simp only [List.map_cons, List.map_nil]
            rw [List.nodup_append]
            refine ⟨hdok.1, List.nodup_singleton p, ?_⟩
            intro q hq hq2
            rw [List.mem_singleton] at hq2
            subst hq2
            exact lookupIM_eq_none.mp hlnone hq
          · intro q hq
            rw [keysOf, List.map_append] at hq
            simp only [List.map_cons, List.map_nil] at hq
            rcases List.mem_append.mp hq with h1 | h2
            · exact hpres q (hdok.2 q h1)
            · rw [List.mem_singleton] at h2
              subst h2
              exact insertIM_lookup_ne_nothing hselv (Or.inl rfl)
      · rw [if_neg hlk]
        exact ⟨ht, hul, hrl, hu, hr, hdrag, hsel⟩

theorem INV_dragEndStep {s : AppState} (h : INV s) : INV (dragEndStep s) := by
  obtain ⟨ht, hul, hrl, hu, hr, hdrag, hsel⟩ := h
  unfold dragEndStep
  cases hdg : s.dragging with
  | none => exact ⟨ht, hul, hrl, hu, hr, hdrag, hsel⟩
  | some d =>
    refine ⟨ht, histAdd_length_le hul d, hrl, ?_, hr, by simp, hsel⟩
    intro d2 hd2
    rcases mem_histAdd hd2 with h1 | h2
    · exact hu d2 h1
    · rw [h2]
      exact hdrag d hdg

theorem DiffOK_applyDiff_pres {t : Tiles} {d d2 : Diff} (ht : nodupKeys t)
    (hd : nodupKeys d) (h : DiffOK t d2) : DiffOK (applyDiff t d).1 d2 :=
  ⟨h.1, fun q hq => applyDiff_lookup_ne_nothing ht hd (Or.inl (h.2 q hq))⟩

theorem DiffOK_applyDiff_snd {t : Tiles} {d : Diff} (ht : nodupKeys t)
    (hd : DiffOK t d) : DiffOK (applyDiff t d).1 (applyDiff t d).2 := by
  refine ⟨nodupKeys_applyDiff_snd ht hd.1, fun q hq => ?_⟩
  rw [keysOf_applyDiff_snd ht hd.1] at hq
  exact applyDiff_lookup_ne_nothing ht hd.1 (Or.inr hq)

theorem INV_undoStep {s : AppState} (h : INV s) : INV (undoStep s) := by
  obtain ⟨ht, hul, hrl, hu, hr, hdrag, hsel⟩ := h
  unfold undoStep
  cases hp : histPop s.undos with
  | none => exact ⟨ht, hul, hrl, hu, hr, hdrag, hsel⟩
  | some pr =>
    obtain ⟨d, rest⟩ := pr
    have hmem := histPop_mem hp
    have hdok : DiffOK s.tiles d := hu d hmem.1
    have hrestlen : rest.length = s.undos.length - 1 := histPop_length hp
    refine ⟨nodupKeys_applyDiff ht d, ?_,
      histAdd_length_le hrl _, ?_, ?_, ?_, hsel⟩
    · show rest.length ≤ 5
      omega
    · intro d2 hd2
      exact DiffOK_applyDiff_pres ht hdok.1 (hu d2 (hmem.2 d2 hd2))
    · intro d2 hd2
      rcases mem_histAdd hd2 with h1 | h2
      · exact DiffOK_applyDiff_pres ht hdok.1 (hr d2 h1)
      · rw [h2]
        exact DiffOK_applyDiff_snd ht hdok
    · intro d2 hd2
      have hd3 : s.dragging = some d2 := hd2
      exact DiffOK_applyDiff_pres ht hdok.1 (hdrag d2 hd3)

theorem INV_redoStep {s : AppState} (h : INV s) : INV (redoStep s) := by
  obtain ⟨ht, hul, hrl, hu, hr, hdrag, hsel⟩ := h
  unfold redoStep
  cases hp : histPop s.redos with
  | none => exact ⟨ht, hul, hrl, hu, hr, hdrag, hsel⟩
  | some pr =>
    obtain ⟨d, rest⟩ := pr
    have hmem := histPop_mem hp
    have hdok : DiffOK s.tiles d := hr d hmem.1
    have hrestlen : rest.length = s.redos.length - 1 := histPop_length hp
    refine ⟨nodupKeys_applyDiff ht d, histAdd_length_le hul _,
      ?_, ?_, ?_, ?_, hsel⟩
    · show rest.length ≤ 5
      omega
    · intro d2 hd2
      rcases mem_histAdd hd2 with h1 | h2
      · exact DiffOK_applyDiff_pres ht hdok.1 (hu d2 h1)
      · rw [h2]
        exact DiffOK_applyDiff_snd ht hdok
    · intro d2 hd2
      exact DiffOK_applyDiff_pres ht hdok.1 (hr d2 (hmem.2 d2 hd2))
    · intro d2 hd2
      have hd3 : s.dragging = some d2 := hd2
      exact DiffOK_applyDiff_pres ht hdok.1 (hdrag d2 hd3)

theorem INV_resetStep {s : AppState} (h : INV s) : INV (resetStep s) := by
  obtain ⟨ht, hul, hrl, hu, hr, hdrag, hsel⟩ := h
  unfold resetStep
  by_cases he : s.tiles.isEmpty
  · rw [if_pos he]
    exact ⟨ht, hul, hrl, hu, hr, hdrag, hsel⟩
  · rw [if_neg he]
    refine ⟨by simp [nodupKeys, keysOf], histAdd_length_le hul _, hrl,
      ?_, ?_, ?_, hsel⟩
    · intro d hd
      rcases mem_histAdd hd with h1 | h2
      · exact ⟨(hu d h1).1, fun q _ => by simp [lookupIM]⟩
      · rw [h2]
        exact ⟨ht, fun q _ => by simp [lookupIM]⟩
    · intro d hd
      exact ⟨(hr d hd).1, fun q _ => by simp [lookupIM]⟩
    · intro d hd
      have hd3 : s.dragging = some d := hd
      exact ⟨(hdrag d hd3).1, fun q _ => by simp [lookupIM]⟩

theorem INV_loadStep {s : AppState} (h : INV s) (hdg : s.dragging = none)
    (path : List Int) (res : Option SavedData) : INV (loadStep s path res) := by
  obtain ⟨ht, hul, hrl, hu, hr, hdrag, hsel⟩ := h
  unfold loadStep
  cases res with
  | none => exact ⟨ht, hul, hrl, hu, hr, hdrag, hsel⟩
  | some data =>
    refine ⟨nodupKeys_fromList data.tiles, by simp, by simp, by simp, by simp,
      ?_, hsel⟩
    intro d hd
    have hd2 : s.dragging = some d := hd
    rw [hdg] at hd2
    cases hd2

theorem INV_saveStep {s : AppState} (h : INV s) (dialog : Option (List Int)) :
    INV (saveStep s dialog).1 := by
  obtain ⟨ht, hul, hrl, hu, hr, hdrag, hsel⟩ := h
  unfold saveStep
  cases hss : s.sprite_sheet with
  | none => exact ⟨ht, hul, hrl, hu, hr, hdrag, hsel⟩
  | some ss =>
    cases hwp : s.workspace_path with
    | some p => exact ⟨ht, hul, hrl, hu, hr, hdrag, hsel⟩
    | none =>
      cases dialog with
      | none => exact ⟨ht, hul, hrl, hu, hr, hdrag, hsel⟩
      | some p => exact ⟨ht, hul, hrl, hu, hr, hdrag, hsel⟩

/-- Every reachable state satisfies the invariant. -/
theorem reach_INV {s : AppState} (h : Reach s) : INV s := by
  induction h with
  | init => exact INV_initState
  | selectSheet path _ ih => exact INV_selectSheetStep ih path
  | selectTile i r _ hrn ih => exact INV_selectTile ih i hrn
  | strokeBegin _ _ ih => exact INV_dragBeginStep ih
  | strokeTouch p _ ih => exact INV_touchStep ih p
  | strokeEnd _ _ _ ih => exact INV_dragEndStep ih
  | undo _ ih => exact INV_undoStep ih
  | redo _ ih => exact INV_redoStep ih
  | reset _ ih => exact INV_resetStep ih
  | load path res _ hdg ih => exact INV_loadStep ih hdg path res
  | save dialog _ ih => exact INV_saveStep ih dialog

/-! ## Stroke characterization -/

/-- A sequence of paint events within one drag, in the order the pointer
entered the cells. -/
def touchesRun (s : AppState) : List TilePos → AppState
  | [] => s
  | p :: ps => touchesRun (touchStep s p) ps

theorem touchStep_recorded {s : AppState} {diff : Diff} {sel : Nat × Rect}
    {p : TilePos} (hdg : s.dragging = some diff)
    (hse : s.selected_tile = some sel) (hp : p ∈ keysOf diff) :
    touchStep s p = s := by
  rw [touchStep_eq_active hdg hse p]
  have hlk : lookupIM diff p ≠ none := fun hc => lookupIM_eq_none.mp hc hp
  rw [if_neg (by simpa [Option.isNone_iff_eq_none] using hlk)]

theorem touchesRun_spec (ps : List TilePos) :
    ∀ (s : AppState) (diff : Diff) (T0 : Tiles) (sel : Nat × Rect),
      s.dragging = some diff → s.selected_tile = some sel →
      nodupKeys s.tiles → nodupKeys diff →
      (∀ q, q ∈ keysOf diff → lookupIM s.tiles q = some sel.2) →
      (∀ q, q ∉ keysOf diff → lookupIM s.tiles q = lookupIM T0 q) →
      (∀ q w, (q, w) ∈ diff → w = (lookupIM T0 q).getD Rect.NOTHING) →
      ∃ diff2,
        (touchesRun s ps).dragging = some diff2 ∧
        (touchesRun s ps).selected_tile = some sel ∧
        nodupKeys (touchesRun s ps).tiles ∧ nodupKeys diff2 ∧
        (∀ q, q ∈ keysOf diff2 ↔ (q ∈ keysOf diff ∨ q ∈ ps)) ∧
        (∀ q, q ∈ keysOf diff2 →
          lookupIM (touchesRun s ps).tiles q = some sel.2) ∧
        (∀ q, q ∉ keysOf diff2 →
          lookupIM (touchesRun s ps).tiles q = lookupIM T0 q) ∧
        (∀ q w, (q, w) ∈ diff2 → w = (lookupIM T0 q).getD Rect.NOTHING) ∧
        (touchesRun s ps).undos = s.undos ∧
        (touchesRun s ps).redos = s.redos := by
  induction ps with
  | nil =>
    intro s diff T0 sel hdg hse ht hd h1 h2 h3
    exact ⟨diff, hdg, hse, ht, hd, fun q => by simp, h1, h2, h3, rfl, rfl⟩
  | cons p ps ih =>
    intro s diff T0 sel hdg hse ht hd h1 h2 h3
    by_cases hp : p ∈ keysOf diff
    · rw [touchesRun, touchStep_recorded hdg hse hp]
      obtain ⟨diff2, c1, c2, c3, c4, c5, c6, c7, c8, c9, c10⟩ :=
        ih s diff T0 sel hdg hse ht hd h1 h2 h3
      refine ⟨diff2, c1, c2, c3, c4, ?_, c6, c7, c8, c9, c10⟩
      intro q
      rw [c5 q, List.mem_cons]
      constructor
      · rintro (hq | hq)
        · exact Or.inl hq
        · exact Or.inr (Or.inr hq)
      · rintro (hq | hq | hq)
        · exact Or.inl hq
        · exact Or.inl (hq ▸ hp)
        · exact Or.inr hq
    · rw [touchesRun, touchStep_eq_active hdg hse p,
        if_pos (by
          simp only [Option.isNone_iff_eq_none]
          exact lookupIM_eq_none.mpr hp)]
      set sNew : AppState :=
        { s with
            tiles := (insertIM s.tiles p sel.2).1
            dragging :=
              some (diff ++ [(p, (insertIM s.tiles p sel.2).2.getD Rect.NOTHING)]) }
        with hsNew
      set diffNew : Diff :=
        diff ++ [(p, (insertIM s.tiles p sel.2).2.getD Rect.NOTHING)] with hdiffNew
      have hkeysNew : keysOf diffNew = keysOf diff ++ [p] := by
        rw [hdiffNew, keysOf, List.map_append]
        rfl
      have hdgN : sNew.dragging = some diffNew := rfl
      have hseN : sNew.selected_tile = some sel := hse
      have htN : nodupKeys sNew.tiles := nodupKeys_insertIM ht p sel.2
      have hdN : nodupKeys diffNew := by
        rw [nodupKeys, hkeysNew]
        rw [List.nodup_append]
        refine ⟨hd, List.nodup_singleton p, ?_⟩
        intro q hq hq2
        rw [List.mem_singleton] at hq2
        exact hp (hq2 ▸ hq)
      have h1N : ∀ q, q ∈ keysOf diffNew →
          lookupIM sNew.tiles q = some sel.2 := by
        intro q hq
        rw [hkeysNew, List.mem_append, List.mem_singleton] at hq
        show lookupIM (insertIM s.tiles p sel.2).1 q = some sel.2
        rw [lookupIM_insertIM]
        rcases hq with hq | hq
        · have hqp : q ≠ p := fun hc => hp (hc ▸ hq)
          rw [if_neg hqp]
          exact h1 q hq
        · rw [if_pos hq]
      have h2N : ∀ q, q ∉ keysOf diffNew →
          lookupIM sNew.tiles q = lookupIM T0 q := by
        intro q hq
        rw [hkeysNew, List.mem_append, List.mem_singleton] at hq
        push_neg at hq
        show lookupIM (insertIM s.tiles p sel.2).1 q = lookupIM T0 q
        rw [lookupIM_insertIM, if_neg hq.2]
        exact h2 q hq.1
      have h3N : ∀ q w, (q, w) ∈ diffNew →
          w = (lookupIM T0 q).getD Rect.NOTHING := by
        intro q w hw
        rw [hdiffNew] at hw
        rcases List.mem_append.mp hw with hw | hw
        · exact h3 q w hw
        · rw [List.mem_singleton] at hw
          injection hw with hw1 hw2
          subst hw1
          rw [hw2, insertIM_snd, h2 q hp]
      obtain ⟨diff2, c1, c2, c3, c4, c5, c6, c7, c8, c9, c10⟩ :=
        ih sNew diffNew T0 sel hdgN hseN htN hdN h1N h2N h3N
      refine ⟨diff2, c1, c2, c3, c4, ?_, c6, c7, c8, c9, c10⟩
      intro q
      rw [c5 q, hkeysNew, List.mem_append, List.mem_singleton, List.mem_cons]
      constructor
      · rintro ((hq | hq) | hq)
        · exact Or.inl hq
        · exact Or.inr (Or.inl hq)
        · exact Or.inr (Or.inr hq)
      · rintro (hq | hq | hq)
        · exact Or.inl (Or.inl hq)
        · exact Or.inl (Or.inr hq)
        · exact Or.inr hq

/-! ## Frame handler and codec lemmas -/

theorem frameStep_none_iff (s : AppState) (hover : Option TilePos)
    (ds dr : Bool) :
    frameStep s hover ds dr = none ↔
      (dr = true ∧ ds = false ∧ hover.isSome = true ∧
        s.selected_tile.isSome = true ∧ s.dragging = none) := by
  unfold frameStep
  cases hover with
  | none => simp
  | some p =>
    cases hse : s.selected_tile with
    | none => simp
    | some sel =>
      cases ds with
      | true => simp
      | false =>
        cases dr with
        | false => simp
        | true =>
          cases hdg : s.dragging with
          | none => simp
          | some d => simp

theorem readChunk_append (l rest : List Int) :
    readChunk l.length (l ++ rest) = some (l, rest) := by
  induction l with
  | nil => rfl
  | cons x xs ih => simp [readChunk, ih]

theorem readNat_cons (n : Nat) (rest : List Int) :
    readNat ((n : Int) :: rest) = some (n, rest) := by
  simp [readNat, Int.toNat_ofNat]

theorem readTiles_encode (l : List (TilePos × Rect)) (rest : List Int) :
    readTiles l.length ((l.map encodeTile).flatten ++ rest) = some (l, rest) := by
  induction l with
  | nil => rfl
  | cons e es ih =>
    obtain ⟨⟨x, y⟩, ⟨a, b, c, d⟩⟩ := e
    simp only [List.map_cons, List.flatten_cons, List.length_cons,
      List.append_assoc]
    rw [readTiles]
    simp [encodeTile, readTile, ih]

theorem readTiles_encode_nil (l : List (TilePos × Rect)) :
    readTiles l.length (l.map encodeTile).flatten = some (l, []) := by
  have h := readTiles_encode l []
  simpa using h

/-- Decoding is a full inverse of encoding: the codec never yields a partial
document and the round trip is exact. -/
theorem decodeSaved_encodeSaved (d : SavedData) :
    decodeSaved (encodeSaved d) = some d := by
  obtain ⟨⟨path, rows, cols⟩, tiles⟩ := d
  unfold decodeSaved encodeSaved encodeSheet
  simp only [List.cons_append, List.append_assoc]
  simp [readNat_cons, readChunk_append, readTiles_encode_nil]

/-! ## Concrete runs used to exercise the model -/

/-- A finite spritesheet sub-rectangle, as produced by `load_images`. -/
def rectA : Rect := ⟨0, 0, 1, 1⟩

def posA : TilePos := ⟨0, 0⟩

def posB : TilePos := ⟨1, 0⟩

def posC : TilePos := ⟨2, 0⟩

/-- The state after the user has picked tile `rectA` from the bottom panel. -/
def selState : AppState := { initState with selected_tile := some (0, rectA) }

theorem reach_selState : Reach selState :=
  Reach.selectTile 0 rectA Reach.init (by decide)

/-- One complete single-cell stroke: primary drag press, one painted cell,
release. -/
def strokeOnce (s : AppState) (p : TilePos) : AppState :=
  dragEndStep (touchStep (dragBeginStep s) p)

theorem reach_strokeOnce {s : AppState} (h : Reach s)
    (hsel : s.selected_tile.isSome = true) (p : TilePos) :
    Reach (strokeOnce s p) := by
  refine Reach.strokeEnd
    (Reach.strokeTouch p (Reach.strokeBegin h hsel)) ?_ ?_
  · cases hse : s.selected_tile with
    | none => rw [hse] at hsel; cases hsel
    | some sel =>
      rw [touchStep_eq_active (show (dragBeginStep s).dragging = some [] from rfl)
        (show (dragBeginStep s).selected_tile = some sel from hse) p]
      by_cases hc : (lookupIM ([] : Diff) p).isNone
      · rw [if_pos hc]
        exact hse ▸ rfl
      · rw [if_neg hc]
        exact hse ▸ rfl
  · cases hse : s.selected_tile with
    | none => rw [hse] at hsel; cases hsel
    | some sel =>
      rw [touchStep_eq_active (show (dragBeginStep s).dragging = some [] from rfl)
        (show (dragBeginStep s).selected_tile = some sel from hse) p]
      rw [if_pos (by simp [lookupIM])]
      rfl

/-! ## The claims -/

/-- C10: when the grid is empty the clear button is a complete no-op — the
guard `!self.tiles.is_empty()` fails, so nothing is cloned, the grid stays
empty, no undo slot is consumed and the redo stack is untouched. -/
theorem reset_on_empty_grid_noop (s : AppState) (h : s.tiles = []) :
    resetStep s = s := by
  unfold resetStep
  rw [h]
  rfl

theorem reset_on_empty_grid_noop_witness : resetStep initState = initState :=
  reset_on_empty_grid_noop initState rfl

/-- C5: load is atomic — a failed dialog, file read or decode leaves the
whole state exactly as it was, while a successful decode replaces the grid
contents and the spritesheet reference and clears both history stacks. -/
theorem load_atomic :
    (∀ (s : AppState) (path : List Int), loadStep s path none = s) ∧
    (∀ (s : AppState) (path : List Int) (bytes : List Int),
      decodeSaved bytes = none → loadStep s path (decodeSaved bytes) = s) ∧
    (∀ (s : AppState) (path : List Int) (data : SavedData),
      (loadStep s path (some data)).tiles = fromList data.tiles ∧
      (loadStep s path (some data)).sprite_sheet = some data.sprite_sheet ∧
      (loadStep s path (some data)).undos = [] ∧
      (loadStep s path (some data)).redos = []) := by
  refine ⟨fun s path => rfl, fun s path bytes h => ?_, fun s path data =>
    ⟨rfl, rfl, rfl, rfl⟩⟩
  rw [h]
  rfl

theorem load_atomic_witness :
    loadStep initState [] none = initState ∧
    loadStep initState [] (decodeSaved [(-1 : Int)]) = initState ∧
    (loadStep initState [] (some ⟨⟨[], 1, 1⟩, [(posA, rectA)]⟩)).undos = [] :=
  ⟨load_atomic.1 initState [],
   load_atomic.2.1 initState [] [(-1 : Int)] (by decide),
   (load_atomic.2.2 initState [] ⟨⟨[], 1, 1⟩, [(posA, rectA)]⟩).2.2.1⟩

/-- C4: both history stacks hold at most 5 diffs in every reachable state; a
push onto a full stack drops the oldest entry and appends the new one, so
six successive pushes keep exactly the five most recent diffs. -/
theorem history_bounded_eviction :
    (∀ s : AppState, Reach s → s.undos.length ≤ 5 ∧ s.redos.length ≤ 5) ∧
    (∀ (h : List Diff) (d : Diff), h.length = 5 →
      histAdd h d = h.drop 1 ++ [d]) ∧
    (∀ d1 d2 d3 d4 d5 d6 : Diff,
      histAdd (histAdd (histAdd (histAdd (histAdd (histAdd [] d1) d2) d3) d4)
          d5) d6 = [d2, d3, d4, d5, d6]) := by
  refine ⟨?_, ?_, ?_⟩
  · intro s hs
    obtain ⟨_, hul, hrl, _, _, _, _⟩ := reach_INV hs
    exact ⟨hul, hrl⟩
  · intro h d hlen
    unfold histAdd
    rw [if_pos (by omega)]
  · intro d1 d2 d3 d4 d5 d6
    rfl

theorem history_bounded_eviction_witness :
    (initState.undos.length ≤ 5 ∧ initState.redos.length ≤ 5) ∧
    histAdd [[], [], [], [], []] [(posA, rectA)] =
      ([[], [], [], [], []] : List Diff).drop 1 ++ [[(posA, rectA)]] :=
  ⟨history_bounded_eviction.1 initState Reach.init,
   history_bounded_eviction.2.1 [[], [], [], [], []] [(posA, rectA)] rfl⟩

/-- The reachable state used against C3: paint `posA`, paint `posB` in a
second stroke, then undo once, leaving one diff on the redo stack and a
non-empty grid. -/
def preResetState : AppState :=
  undoStep (strokeOnce (strokeOnce selState posA) posB)

/-- C3 counterexample: the clear button pushes the cloned grid onto the undo
stack but never touches `self.redos`, so a reset performed with a pending
redo leaves the redo stack non-empty — the claim that reset clears the redo
stack is false on this reachable state. -/
theorem reset_keeps_redo_cex :
    Reach preResetState ∧ preResetState.tiles ≠ [] ∧
      (resetStep preResetState).redos ≠ [] :=
  ⟨Reach.undo (reach_strokeOnce
      (reach_strokeOnce reach_selState (by decide) posA) (by decide) posB),
    by decide, by decide⟩

/-- C3 amended: after any stroke-begin the redo stack is empty (so a redo at
that point is a no-op until another undo occurs); reset, however, leaves the
redo stack exactly as it was. -/
theorem begin_clears_redo_reset_does_not :
    (∀ s : AppState, (dragBeginStep s).redos = []) ∧
    (∀ s : AppState, redoStep (dragBeginStep s) = dragBeginStep s) ∧
    (∀ s : AppState, (resetStep s).redos = s.redos) := by
  refine ⟨fun s => rfl, fun s => rfl, fun s => ?_⟩
  unfold resetStep
  by_cases he : s.tiles.isEmpty
  · rw [if_pos he]
  · rw [if_neg he]

/-- C6 counterexample: with a tile selected and no stroke in progress, a
frame that reports a primary-drag release (and no drag start) reaches
`self.dragging.take().unwrap()` with `dragging == None`, and the handler
panics — modelled by `frameStep` returning `none` — so not every core
operation is abort-free. -/
theorem unmatched_release_panics_cex :
    Reach selState ∧ frameStep selState (some posA) false true = none :=
  ⟨reach_selState, by decide⟩

/-- C6 amended: undo on an empty undo stack and redo on an empty redo stack
are defined no-ops that change nothing, removing an absent grid key is a
no-op reporting absence, and the per-frame handler can abort in exactly one
situation: a primary-drag release processed while a tile is selected, the
plot is hovered and no stroke is in progress (the `unwrap` on
`self.dragging`). All other core operations are total. -/
theorem core_defined_noops :
    (∀ s : AppState, s.undos = [] → undoStep s = s) ∧
    (∀ s : AppState, s.redos = [] → redoStep s = s) ∧
    (∀ (t : Tiles) (p : TilePos), lookupIM t p = none →
      swapRemoveIM t p = (t, none)) ∧
    (∀ (s : AppState) (hover : Option TilePos) (ds dr : Bool),
      frameStep s hover ds dr = none ↔
        (dr = true ∧ ds = false ∧ hover.isSome = true ∧
          s.selected_tile.isSome = true ∧ s.dragging = none)) := by
  refine ⟨?_, ?_, fun t p h => swapRemoveIM_absent h, frameStep_none_iff⟩
  · intro s h
    unfold undoStep histPop
    rw [h]
    rfl
  · intro s h
    unfold redoStep histPop
    rw [h]
    rfl

theorem core_defined_noops_witness :
    undoStep initState = initState ∧
    redoStep initState = initState ∧
    swapRemoveIM [] posA = ([], none) ∧
    (frameStep selState (some posA) false true = none ↔
      (true = true ∧ false = false ∧ (some posA).isSome = true ∧
        selState.selected_tile.isSome = true ∧ selState.dragging = none)) :=
  ⟨core_defined_noops.1 initState rfl,
   core_defined_noops.2.1 initState rfl,
   core_defined_noops.2.2.1 [] posA rfl,
   core_defined_noops.2.2.2 selState (some posA) false true⟩

/-- The reachable mid-stroke state used against C8: paint `posA`, then start
a second stroke, touch `posB`, press Ctrl+Z while still dragging (undoing the
first stroke removes `posA` from the grid), then touch `posA`. -/
def midStrokeState : AppState :=
  touchStep (undoStep (touchStep (dragBeginStep (strokeOnce selState posA))
    posB)) posA

/-- C8 counterexample: before the second stroke began the grid held `rectA`
at `posA`, yet the in-progress diff records the empty sentinel for `posA`,
because a mid-drag undo removed the cell before it was touched. The diff
entry is not the pre-stroke value. -/
theorem stroke_diff_not_prestroke_cex :
    Reach midStrokeState ∧
    lookupIM (strokeOnce selState posA).tiles posA = some rectA ∧
    midStrokeState.dragging.map (fun d => lookupIM d posA) =
      some (some Rect.NOTHING) ∧
    Rect.NOTHING ≠ rectA := by
  refine ⟨?_, by decide, by decide, by decide⟩
  exact Reach.strokeTouch posA (Reach.undo (Reach.strokeTouch posB
    (Reach.strokeBegin (reach_strokeOnce reach_selState (by decide) posA)
      (by decide))))

/-- C8 amended: provided no undo/redo runs during the drag, a stroke's
in-progress diff holds at most one entry per position, each entry is the grid
value (or the empty sentinel) from before the stroke began, and touching a
cell already recorded in this stroke leaves the state unchanged. -/
theorem stroke_diff_first_touch_baseline (s : AppState) (ps : List TilePos)
    (hsel : s.selected_tile.isSome = true) (ht : nodupKeys s.tiles) :
    ∃ diff2,
      (touchesRun (dragBeginStep s) ps).dragging = some diff2 ∧
      nodupKeys diff2 ∧
      (∀ q, q ∈ keysOf diff2 ↔ q ∈ ps) ∧
      (∀ q w, (q, w) ∈ diff2 → w = (lookupIM s.tiles q).getD Rect.NOTHING) ∧
      (∀ p2, p2 ∈ keysOf diff2 →
        touchStep (touchesRun (dragBeginStep s) ps) p2 =
          touchesRun (dragBeginStep s) ps) := by
  cases hse : s.selected_tile with
  | none => rw [hse] at hsel; cases hsel
  | some sel =>
    obtain ⟨diff2, c1, c2, c3, c4, c5, c6, c7, c8, c9, c10⟩ :=
      touchesRun_spec ps (dragBeginStep s) [] s.tiles sel rfl hse ht
        (by simp [nodupKeys, keysOf]) (by simp [keysOf])
        (fun q _ => rfl) (by simp)
    refine ⟨diff2, c1, c4, ?_, c8, ?_⟩
    · intro q
      rw [c5 q]
      simp [keysOf]
    · intro p2 hp2
      exact touchStep_recorded c1 c2 hp2

theorem stroke_diff_first_touch_baseline_witness :
    ∃ diff2,
      (touchesRun (dragBeginStep selState) [posA, posB, posA]).dragging =
        some diff2 ∧
      nodupKeys diff2 ∧
      (∀ q, q ∈ keysOf diff2 ↔ q ∈ [posA, posB, posA]) ∧
      (∀ q w, (q, w) ∈ diff2 →
        w = (lookupIM selState.tiles q).getD Rect.NOTHING) ∧
      (∀ p2, p2 ∈ keysOf diff2 →
        touchStep (touchesRun (dragBeginStep selState) [posA, posB, posA]) p2 =
          touchesRun (dragBeginStep selState) [posA, posB, posA]) :=
  stroke_diff_first_touch_baseline selState [posA, posB, posA]
    (by decide) (by decide)

/-- The reachable state used against C9: paint `posA` in one stroke, then in
a second stroke touch `posB` and `posC`, and press Ctrl+Z while still
dragging. The undo swap-removes `posA`, moving `posC` (the most recent
entry) into its slot. -/
def preMidUndoState : AppState :=
  touchStep (touchStep (dragBeginStep (strokeOnce selState posA)) posB) posC

/-- C9 counterexample: before the mid-stroke undo the grid iterates as
`posA, posB, posC` (the insertion order); after the undo the surviving
entries iterate as `posC, posB`, although `posB` was inserted before `posC`.
`IndexMap::remove` is a swap-remove, so an undo that removes a cell can
reorder the surviving entries. -/
theorem grid_order_not_insertion_cex :
    Reach (undoStep preMidUndoState) ∧
    preMidUndoState.tiles = [(posA, rectA), (posB, rectA), (posC, rectA)] ∧
    (undoStep preMidUndoState).tiles = [(posC, rectA), (posB, rectA)] := by
  refine ⟨?_, by decide, by decide⟩
  exact Reach.undo (Reach.strokeTouch posC (Reach.strokeTouch posB
    (Reach.strokeBegin (reach_strokeOnce reach_selState (by decide) posA)
      (by decide))))

/-- C9 amended: iteration order is insertion order for every operation that
does not remove a grid key — painting a fresh cell appends it, overwriting an
existing cell keeps its position, and replaying a diff with no sentinel
entries only appends new keys — but an undo/redo entry that removes a cell
(a sentinel entry) swap-removes it, which can reorder surviving entries. -/
theorem insertion_order_without_removals (t : Tiles) :
    (∀ (p : TilePos) (v : Rect), lookupIM t p = none →
      (insertIM t p v).1 = t ++ [(p, v)]) ∧
    (∀ (p : TilePos) (v w : Rect), lookupIM t p = some w →
      keysOf (insertIM t p v).1 = keysOf t) ∧
    (∀ d : Diff, (∀ e ∈ d, e.2 ≠ Rect.NOTHING) →
      ∃ ext, keysOf (applyDiff t d).1 = keysOf t ++ ext) := by
  refine ⟨fun p v h => insertIM_absent h v, ?_, ?_⟩
  · intro p v w h
    have hm : p ∈ keysOf t := by
      by_contra hc
      rw [← lookupIM_eq_none] at hc
      rw [h] at hc
      cases hc
    rw [keysOf_insertIM, if_pos hm]
  · intro d
    induction d generalizing t with
    | nil =>
      intro _
      exact ⟨[], by simp [applyDiff]⟩
    | cons e rest ih =>
      intro h
      obtain ⟨p, v⟩ := e
      have hv : v ≠ Rect.NOTHING := h (p, v) (List.mem_cons_self _ _)
      rw [applyDiff]
      simp only [if_neg hv]
      obtain ⟨ext, hext⟩ :=
        ih (insertIM t p v).1 (fun e2 he2 => h e2 (List.mem_cons_of_mem _ he2))
      by_cases hm : p ∈ keysOf t
      · refine ⟨ext, ?_⟩
        rw [hext, keysOf_insertIM, if_pos hm]
      · refine ⟨p :: ext, ?_⟩
        rw [hext, keysOf_insertIM, if_neg hm]
        simp

theorem insertion_order_without_removals_witness :
    (insertIM [(posA, rectA)] posB rectA).1 =
      [(posA, rectA)] ++ [(posB, rectA)] ∧
    keysOf (insertIM [(posA, rectA)] posA rectA).1 = keysOf [(posA, rectA)] ∧
    ∃ ext, keysOf (applyDiff [(posA, rectA)] [(posB, rectA)]).1 =
      keysOf [(posA, rectA)] ++ ext :=
  ⟨(insertion_order_without_removals [(posA, rectA)]).1 posB rectA (by decide),
   (insertion_order_without_removals [(posA, rectA)]).2.1 posA rectA rectA
     (by decide),
   (insertion_order_without_removals [(posA, rectA)]).2.2 [(posB, rectA)]
     (by decide)⟩

theorem undoStep_push (s : AppState) (d : Diff) :
    undoStep { s with undos := histAdd s.undos d, dragging := none } =
      { s with
          dragging := none
          tiles := (applyDiff s.tiles d).1
          undos := if s.undos.length ≥ 5 then s.undos.drop 1 else s.undos
          redos := histAdd s.redos (applyDiff s.tiles d).2 } := by
  unfold undoStep
  rw [show ({ s with undos := histAdd s.undos d, dragging := none } :
      AppState).undos = histAdd s.undos d from rfl]
  rw [histPop_histAdd]

/-- The state used against C1: a crafted document gives the grid a cell whose
real stored value is the sentinel `Rect::NOTHING`; a stroke then paints that
cell, and its diff entry (the old value, `NOTHING`) is indistinguishable from
"the cell was empty". -/
def nothingGridState : AppState :=
  loadStep selState [] (some ⟨⟨[], 1, 1⟩, [(posA, Rect.NOTHING)]⟩)

/-- C1 counterexample: before the stroke the grid's key set is `{posA}` (with
stored value `NOTHING`); after committing the stroke and undoing it, `posA`
is absent — the key set is not restored. The sentinel collapses "absent" with
a stored `NOTHING` value, exactly the latent defect the spec flags. -/
theorem stroke_undo_not_restoring_cex :
    Reach (undoStep (strokeOnce nothingGridState posA)) ∧
    lookupIM nothingGridState.tiles posA = some Rect.NOTHING ∧
    lookupIM (undoStep (strokeOnce nothingGridState posA)).tiles posA =
      none := by
  refine ⟨?_, by decide, by decide⟩
  exact Reach.undo (reach_strokeOnce
    (Reach.load [] (some ⟨⟨[], 1, 1⟩, [(posA, Rect.NOTHING)]⟩)
      reach_selState rfl)
    (by decide) posA)

/-- C1 amended: for every grid state in which no touched cell stores the
sentinel value, committing a stroke (begin, any touch sequence, end) and then
undoing it restores the grid to exactly its pre-stroke key set and values. -/
theorem stroke_then_undo_restores (s : AppState) (ps : List TilePos)
    (hsel : s.selected_tile.isSome = true) (ht : nodupKeys s.tiles)
    (hsafe : ∀ p ∈ ps, lookupIM s.tiles p ≠ some Rect.NOTHING) :
    ∀ q, lookupIM
        (undoStep (dragEndStep (touchesRun (dragBeginStep s) ps))).tiles q =
      lookupIM s.tiles q := by
  cases hse : s.selected_tile with
  | none => rw [hse] at hsel; cases hsel
  | some sel =>
    obtain ⟨diff2, c1, c2, c3, c4, c5, c6, c7, c8, c9, c10⟩ :=
      touchesRun_spec ps (dragBeginStep s) [] s.tiles sel rfl hse ht
        (by simp [nodupKeys, keysOf]) (by simp [keysOf])
        (fun q _ => rfl) (by simp)
    intro q
    have hend : dragEndStep (touchesRun (dragBeginStep s) ps) =
        { touchesRun (dragBeginStep s) ps with
            undos := histAdd (touchesRun (dragBeginStep s) ps).undos diff2
            dragging := none } := by
      unfold dragEndStep
      rw [c1]
    rw [hend, undoStep_push]
    rw [lookupIM_applyDiff c3 c4 q]
    cases hdq : lookupIM diff2 q with
    | none =>
      have hq2 : q ∉ keysOf diff2 := lookupIM_eq_none.mp hdq
      exact c7 q hq2
    | some v =>
      have hqmem : (q, v) ∈ diff2 := (lookupIM_eq_some_iff c4).mp hdq
      have hqkeys : q ∈ keysOf diff2 := List.mem_map_of_mem Prod.fst hqmem
      have hqps : q ∈ ps := by
        rcases (c5 q).mp hqkeys with hc | hc
        · simp [keysOf] at hc
        · exact hc
      have hval : v = (lookupIM s.tiles q).getD Rect.NOTHING := c8 q v hqmem
      cases hsq : lookupIM s.tiles q with
      | none =>
        rw [hsq] at hval
        simp only [Option.getD_none] at hval
        show (if v = Rect.NOTHING then none else some v) = none
        rw [if_pos hval]
      | some w =>
        rw [hsq] at hval
        simp only [Option.getD_some] at hval
        have hw : w ≠ Rect.NOTHING := by
          intro hc
          exact hsafe q hqps (by rw [hsq, hc])
        show (if v = Rect.NOTHING then none else some v) = some w
        rw [if_neg (hval ▸ hw), hval]

theorem stroke_then_undo_restores_witness :
    lookupIM (undoStep (dragEndStep (touchesRun (dragBeginStep selState)
      [posA, posB]))).tiles posA = lookupIM selState.tiles posA :=
  stroke_then_undo_restores selState [posA, posB] (by decide) (by decide)
    (by decide) posA

/-- C2 counterexample: end the mid-stroke-undo drag of `preMidUndoState`,
giving a reachable state whose grid iterates `posC, posB` and whose top undo
diff removes both cells. One undo then one redo restores the same cells and
values but re-appends them in diff order, so the grid comes back as
`posB, posC` — the pre-undo iteration order is not restored. -/
theorem undo_redo_order_not_restored_cex :
    Reach (dragEndStep (undoStep preMidUndoState)) ∧
    (dragEndStep (undoStep preMidUndoState)).undos ≠ [] ∧
    (dragEndStep (undoStep preMidUndoState)).tiles =
      [(posC, rectA), (posB, rectA)] ∧
    (redoStep (undoStep (dragEndStep (undoStep preMidUndoState)))).tiles =
      [(posB, rectA), (posC, rectA)] := by
  refine ⟨?_, by decide, by decide, by decide⟩
  exact Reach.strokeEnd
    (Reach.undo (Reach.strokeTouch posC (Reach.strokeTouch posB
      (Reach.strokeBegin (reach_strokeOnce reach_selState (by decide) posA)
        (by decide)))))
    (by decide) (by decide)

/-- C2 amended: in every reachable state with a non-empty undo stack, one
undo followed by one redo restores the grid to exactly its pre-undo keys and
values (iteration order may differ when the undone diff's removals sit away
from the end of the map), restores the undo stack exactly, and returns the
redo stack to its pre-undo contents minus the oldest entry when it was
full. -/
theorem undo_redo_roundtrip (s : AppState) (hR : Reach s)
    (hne : s.undos ≠ []) :
    (∀ q, lookupIM (redoStep (undoStep s)).tiles q = lookupIM s.tiles q) ∧
    (redoStep (undoStep s)).undos = s.undos ∧
    (redoStep (undoStep s)).redos =
      (if s.redos.length ≥ 5 then s.redos.drop 1 else s.redos) ∧
    (redoStep (undoStep s)).dragging = s.dragging := by
  obtain ⟨ht, hul, hrl, hu, hrs, hdrag, hsel⟩ := reach_INV hR
  set d := s.undos.getLast hne with hddef
  have hpop : histPop s.undos = some (d, s.undos.dropLast) := by
    unfold histPop
    rw [List.getLast?_eq_getLast_of_ne_nil hne]
  have hdmem : d ∈ s.undos := by
    rw [hddef]
    exact List.getLast_mem hne
  have hdok : DiffOK s.tiles d := hu d hdmem
  have hs1 : undoStep s = { s with
      tiles := (applyDiff s.tiles d).1
      undos := s.undos.dropLast
      redos := histAdd s.redos (applyDiff s.tiles d).2 } := by
    unfold undoStep
    rw [hpop]
  set t1 := (applyDiff s.tiles d).1 with ht1def
  set r := (applyDiff s.tiles d).2 with hrdef
  have hnd : nodupKeys d := hdok.1
  have hnt1 : nodupKeys t1 := nodupKeys_applyDiff ht d
  have hnr : nodupKeys r := nodupKeys_applyDiff_snd ht hnd
  have hkeysr : keysOf r = keysOf d := keysOf_applyDiff_snd ht hnd
  have hrmap : r =
      d.map (fun e => (e.1, (lookupIM s.tiles e.1).getD Rect.NOTHING)) :=
    applyDiff_snd ht hnd
  have hs2 : redoStep (undoStep s) = { s with
      tiles := (applyDiff t1 r).1
      undos := histAdd s.undos.dropLast (applyDiff t1 r).2
      redos := if s.redos.length ≥ 5 then s.redos.drop 1 else s.redos } := by
    rw [hs1]
    unfold redoStep
    have hproj : ({ s with
        tiles := t1
        undos := s.undos.dropLast
        redos := histAdd s.redos r } : AppState).redos = histAdd s.redos r :=
      rfl
    rw [hproj, histPop_histAdd]
  have hu_eq : (applyDiff t1 r).2 = d := by
    rw [applyDiff_snd hnt1 hnr, hrmap, List.map_map]
    have hcongr : ∀ e ∈ d,
        ((fun e2 : TilePos × Rect =>
            (e2.1, (lookupIM t1 e2.1).getD Rect.NOTHING)) ∘
          (fun e2 : TilePos × Rect =>
            (e2.1, (lookupIM s.tiles e2.1).getD Rect.NOTHING))) e = id e := by
      intro e he
      simp only [Function.comp_apply, id_eq]
      have hlk : lookupIM d e.1 = some e.2 := by
        refine (lookupIM_eq_some_iff hnd).mpr ?_
        rw [Prod.mk.eta]
        exact he
      have ht1lk : lookupIM t1 e.1 =
          if e.2 = Rect.NOTHING then none else some e.2 := by
        rw [ht1def, lookupIM_applyDiff ht hnd e.1, hlk]
      rw [ht1lk]
      by_cases hv : e.2 = Rect.NOTHING
      · rw [if_pos hv]
        simp only [Option.getD_none]
        rw [← hv, Prod.mk.eta]
      · rw [if_neg hv]
        simp only [Option.getD_some]
    calc d.map ((fun e2 : TilePos × Rect =>
            (e2.1, (lookupIM t1 e2.1).getD Rect.NOTHING)) ∘
          (fun e2 : TilePos × Rect =>
            (e2.1, (lookupIM s.tiles e2.1).getD Rect.NOTHING)))
        = d.map id := List.map_congr_left hcongr
      _ = d := List.map_id d
  refine ⟨?_, ?_, ?_, ?_⟩
  · intro q
    rw [hs2]
    show lookupIM (applyDiff t1 r).1 q = lookupIM s.tiles q
    rw [lookupIM_applyDiff hnt1 hnr q]
    cases hrq : lookupIM r q with
    | none =>
      have hqr : q ∉ keysOf r := lookupIM_eq_none.mp hrq
      rw [hkeysr] at hqr
      show lookupIM t1 q = lookupIM s.tiles q
      rw [ht1def]
      exact lookupIM_applyDiff_not_mem ht hqr
    | some w =>
      have hqmem : (q, w) ∈ r := (lookupIM_eq_some_iff hnr).mp hrq
      rw [hrmap, List.mem_map] at hqmem
      obtain ⟨e, he, heq⟩ := hqmem
      injection heq with heq1 heq2
      have hqd : q ∈ keysOf d := heq1 ▸ List.mem_map_of_mem Prod.fst he
      have hnn : lookupIM s.tiles q ≠ some Rect.NOTHING := hdok.2 q hqd
      rw [heq1] at heq2
      cases hsq : lookupIM s.tiles q with
      | none =>
        rw [hsq] at heq2
        simp only [Option.getD_none] at heq2
        show (if w = Rect.NOTHING then none else some w) = none
        rw [if_pos heq2.symm]
      | some u0 =>
        rw [hsq] at heq2
        simp only [Option.getD_some] at heq2
        have hu0 : u0 ≠ Rect.NOTHING := by
          intro hc
          exact hnn (by rw [hsq, hc])
        show (if w = Rect.NOTHING then none else some w) = some u0
        rw [if_neg (heq2 ▸ hu0), heq2]
  · rw [hs2, hu_eq]
    show histAdd s.undos.dropLast d = s.undos
    unfold histAdd
    have hpos : 0 < s.undos.length := List.length_pos.mpr hne
    have hlen : s.undos.dropLast.length < 5 := by
      rw [List.length_dropLast]
      omega
    rw [if_neg (by omega)]
    refine List.dropLast_append_getLast? d ?_
    rw [List.getLast?_eq_getLast_of_ne_nil hne, hddef]
    rfl
  · rw [hs2]
  · rw [hs2]

theorem undo_redo_roundtrip_witness :
    lookupIM (redoStep (undoStep (strokeOnce selState posA))).tiles posA =
      lookupIM (strokeOnce selState posA).tiles posA ∧
    (redoStep (undoStep (strokeOnce selState posA))).undos =
      (strokeOnce selState posA).undos :=
  ⟨(undo_redo_roundtrip (strokeOnce selState posA)
      (reach_strokeOnce reach_selState (by decide) posA) (by decide)).1 posA,
   (undo_redo_roundtrip (strokeOnce selState posA)
      (reach_strokeOnce reach_selState (by decide) posA) (by decide)).2.1⟩

/-- C7: with a spritesheet reference and a workspace path set, saving
produces the encoded snapshot of the grid in iteration order without touching
the state, and loading those same bytes back restores every (position,
value) pair in the same order, restores the spritesheet reference, and leaves
both history stacks empty. -/
theorem save_load_roundtrip (s : AppState) (hR : Reach s)
    (ss : SpriteSheet) (wp : List Int) (h1 : s.sprite_sheet = some ss)
    (h2 : s.workspace_path = some wp) (lp : List Int) :
    saveStep s none = (s, some (encodeSaved ⟨ss, s.tiles⟩)) ∧
    (loadStep s lp (decodeSaved (encodeSaved ⟨ss, s.tiles⟩))).tiles =
      s.tiles ∧
    (loadStep s lp (decodeSaved (encodeSaved ⟨ss, s.tiles⟩))).sprite_sheet =
      some ss ∧
    (loadStep s lp (decodeSaved (encodeSaved ⟨ss, s.tiles⟩))).undos = [] ∧
    (loadStep s lp (decodeSaved (encodeSaved ⟨ss, s.tiles⟩))).redos = [] := by
  obtain ⟨ht, _, _, _, _, _, _⟩ := reach_INV hR
  have hload : loadStep s lp (decodeSaved (encodeSaved ⟨ss, s.tiles⟩)) =
      { s with
          tiles := fromList s.tiles
          undos := []
          redos := []
          sprite_sheet := some ss
          workspace_path := some lp } := by
    rw [decodeSaved_encodeSaved]
    rfl
  refine ⟨?_, ?_, ?_, ?_, ?_⟩
  · unfold saveStep
    rw [h1, h2]
  · rw [hload]
    exact fromList_nodup ht
  · rw [hload]
  · rw [hload]
  · rw [hload]

theorem save_load_roundtrip_witness :
    saveStep (saveStep (selectSheetStep initState []) (some [])).1 none =
      ((saveStep (selectSheetStep initState []) (some [])).1,
        some (encodeSaved ⟨⟨[], 1, 1⟩,
          (saveStep (selectSheetStep initState []) (some [])).1.tiles⟩)) ∧
    (loadStep (saveStep (selectSheetStep initState []) (some [])).1 []
      (decodeSaved (encodeSaved ⟨⟨[], 1, 1⟩,
        (saveStep (selectSheetStep initState []) (some [])).1.tiles⟩))).undos =
      [] :=
  ⟨(save_load_roundtrip (saveStep (selectSheetStep initState []) (some [])).1
      (Reach.save (some []) (Reach.selectSheet [] Reach.init))
      ⟨[], 1, 1⟩ [] rfl rfl []).1,
   (save_load_roundtrip (saveStep (selectSheetStep initState []) (some [])).1
      (Reach.save (some []) (Reach.selectSheet [] Reach.init))
      ⟨[], 1, 1⟩ [] rfl rfl []).2.2.2.1⟩
